import Mathlib

set_option maxHeartbeats 1000000

/-
  Shallow embedding of src/compactLog.py.

  Lines read from a file are modelled as the list of line strings, each still
  carrying its trailing newline character, exactly as Python's file iteration
  yields them.  Python floats are modelled as exact rationals; the model of
  the builtin float() covers finite decimal literals (optional sign, digits,
  decimal point, exponent) and not the inf/nan spellings or underscore digit
  separators, which no input in this development exercises.
-/

namespace CompactLog

/-- Characters treated as whitespace by Python's str.strip and str.split. -/
def isPyWS (c : Char) : Bool :=
  c = ' ' || c = '\t' || c = '\n' || c = '\r' || c = Char.ofNat 11 || c = Char.ofNat 12

/-- Python line.rstrip applied to newlines only: drop every trailing newline character. -/
def rstripNewline (s : String) : String :=
  String.mk (((s.data.reverse).dropWhile (fun c => c = '\n')).reverse)

/-- Python str.strip with no argument: drop leading and trailing whitespace. -/
def pyStrip (s : String) : String :=
  String.mk ((((s.data.dropWhile isPyWS).reverse).dropWhile isPyWS).reverse)

/-- Helper for whitespace splitting; the current token is accumulated in reverse. -/
def splitWSAux : List Char → List Char → List String
  | [], acc => if acc.isEmpty then [] else [String.mk acc.reverse]
  | c :: rest, acc =>
    if isPyWS c then
      if acc.isEmpty then splitWSAux rest []
      else String.mk acc.reverse :: splitWSAux rest []
    else splitWSAux rest (c :: acc)

/-- Python str.split with no argument: split on whitespace runs, yielding no empty tokens. -/
def pySplitWS (s : String) : List String := splitWSAux s.data []

/-- Take the maximal leading run of ASCII digits. -/
def takeDigits : List Char → List Char × List Char
  | [] => ([], [])
  | c :: rest =>
    if c.isDigit then
      let p := takeDigits rest
      (c :: p.1, p.2)
    else ([], c :: rest)

/-- Numeric value of a digit string. -/
def digitsToNat (ds : List Char) : Nat :=
  ds.foldl (fun a c => a * 10 + (c.toNat - 48)) 0

/-- Parse the exponent part of a float literal: optional sign then digits, consuming everything. -/
def parseExpDigits (cs : List Char) : Option Int :=
  let p : Bool × List Char :=
    match cs with
    | '+' :: r => (false, r)
    | '-' :: r => (true, r)
    | r => (false, r)
  let q := takeDigits p.2
  if q.1.isEmpty || !q.2.isEmpty then none
  else some (if p.1 then -(digitsToNat q.1 : Int) else (digitsToNat q.1 : Int))

/-- Model of Python's float() on a token: optional sign, digits with optional
fraction, optional exponent; none when the token is not a float literal. -/
def pyFloat? (s : String) : Option Rat :=
  let p0 : Bool × List Char :=
    match s.data with
    | '+' :: r => (false, r)
    | '-' :: r => (true, r)
    | r => (false, r)
  let ip := takeDigits p0.2
  let fp : Option (List Char) × List Char :=
    match ip.2 with
    | '.' :: r =>
      let q := takeDigits r
      (some q.1, q.2)
    | r => (none, r)
  let haveDigits : Bool :=
    !ip.1.isEmpty ||
      (match fp.1 with
       | some ds => !ds.isEmpty
       | none => false)
  if !haveDigits then none
  else
    let mant : Rat :=
      (digitsToNat ip.1 : Rat) +
        (match fp.1 with
         | some ds => (digitsToNat ds : Rat) / ((10 : Rat) ^ ds.length)
         | none => 0)
    let withExp : Option Rat :=
      match fp.2 with
      | [] => some mant
      | 'e' :: r => (parseExpDigits r).map (fun k => mant * (10 : Rat) ^ k)
      | 'E' :: r => (parseExpDigits r).map (fun k => mant * (10 : Rat) ^ k)
      | _ => none
    withExp.map (fun v => if p0.1 then -v else v)

/-- Value of a substring matched by the regex pattern of digits with an
optional fractional part. -/
def numVal (cs : List Char) : Rat :=
  let ip := takeDigits cs
  match ip.2 with
  | '.' :: r =>
    let q := takeDigits r
    (digitsToNat ip.1 : Rat) + (digitsToNat q.1 : Rat) / ((10 : Rat) ^ q.1.length)
  | _ => (digitsToNat ip.1 : Rat)

/-- Leftmost match of the regex for digits with an optional fractional part:
returns the text before the match, the matched characters, and the text after,
or none when the line holds no digit.  The scanned prefix is carried reversed. -/
def findNum : List Char → List Char → Option (List Char × List Char × List Char)
  | [], _ => none
  | c :: rest, before =>
    if c.isDigit then
      let ds := takeDigits (c :: rest)
      match ds.2 with
      | '.' :: r2 =>
        let fs := takeDigits r2
        if fs.1.isEmpty then some (before.reverse, ds.1, '.' :: r2)
        else some (before.reverse, ds.1 ++ '.' :: fs.1, fs.2)
      | r1 => some (before.reverse, ds.1, r1)
    else findNum rest (c :: before)

/-- Embedding of extract_timestamp_and_content: first numeric substring becomes
the timestamp, and the content is the line with exactly that substring removed
and trailing newlines stripped. -/
def extract_timestamp_and_content (line : String) : Option Rat × String :=
  match findNum line.data [] with
  | none => (none, rstripNewline line)
  | some m => (some (numVal m.2.1), rstripNewline (String.mk (m.1 ++ m.2.2)))

/-- Exceptions the Python code can raise on the paths modelled here: comparing
None against a float with an order operator, and min/max over an empty sequence. -/
inductive PyErr where
  | typeErrorNoneCmp : PyErr
  | valueErrorEmptyMin : PyErr
deriving DecidableEq, Repr

/-- The validated parameters the CLI hands to the core routines: line-number
bounds and timestamp bounds, each bound independently optional. -/
structure Filters where
  startLine : Nat
  endLine : Option Nat
  tsStart : Option Rat
  tsEnd : Option Rat
deriving DecidableEq, Repr

/-- The default configuration: no line-range argument gives bounds (1, None),
no timestamp-range argument gives bounds (None, None). -/
def cfg0 : Filters := { startLine := 1, endLine := none, tsStart := none, tsEnd := none }

/-- The line number is past the upper line bound, when one is set. -/
def overEnd (endLine : Option Nat) (i : Nat) : Bool :=
  match endLine with
  | some e => decide (i > e)
  | none => false

/-- Embedding of line_in_filters from process_compact.  The Python comparison
of a None timestamp against a set bound raises TypeError, modelled as an error. -/
def line_in_filters (cfg : Filters) (lineno : Nat) (ts : Option Rat) : Except PyErr Bool :=
  if lineno < cfg.startLine then .ok false
  else if overEnd cfg.endLine lineno then .ok false
  else
    match cfg.tsStart, ts with
    | some _, none => .error .typeErrorNoneCmp
    | some a, some t =>
      if t < a then .ok false
      else
        match cfg.tsEnd, ts with
        | some _, none => .error .typeErrorNoneCmp
        | some b, some u => if u > b then .ok false else .ok true
        | none, _ => .ok true
    | none, _ =>
      match cfg.tsEnd, ts with
      | some _, none => .error .typeErrorNoneCmp
      | some b, some u => if u > b then .ok false else .ok true
      | none, _ => .ok true

/-- Sequential filtering by a fallible predicate, evaluating the predicate on
the elements in order as a Python list comprehension does. -/
def filterExcept (p : α → Except PyErr Bool) : List α → Except PyErr (List α)
  | [] => .ok []
  | a :: as => do
    let b ← p a
    let rest ← filterExcept p as
    return if b then a :: rest else rest

/-- Pad a natural number below 1000 to three digits. -/
def pad3 (k : Nat) : String :=
  if k < 10 then "00" ++ toString k
  else if k < 100 then "0" ++ toString k
  else toString k

/-- Python f-string formatting of a rational with exactly three decimal
digits, rounding ties to even as float formatting does. -/
def fmt3 (q : Rat) : String :=
  let sgnStr := if q < 0 then "-" else ""
  let a : Rat := if q < 0 then -q else q
  let s : Rat := a * 1000
  let fl : Nat := (s.num / (s.den : Int)).toNat
  let rem : Rat := s - (fl : Rat)
  let n : Nat :=
    if rem > 1/2 then fl + 1
    else if rem < 1/2 then fl
    else if fl % 2 = 0 then fl else fl + 1
  sgnStr ++ toString (n / 1000) ++ "." ++ pad3 (n % 1000)

/-- The summary record written for a group with several surviving members. -/
def summaryLine (content : String) (count : Nat) (a b : Rat) : String :=
  content ++ " (x" ++ toString count ++ ", TS: " ++ fmt3 a ++ "-" ++ fmt3 b ++ ")\n"

/-- A buffered group member: line number, raw line, extracted timestamp.  The
Python code keeps three parallel lists grown in lockstep and zips them at
flush time; the list of triples is the same data. -/
abbrev GEntry : Type := Nat × String × Option Rat

/-- Flushing one group in process_compact: filter the members, then emit
nothing, the single survivor's raw line, or one summary record.  min/max over
an empty sequence of timestamps raises ValueError, modelled as an error. -/
def flushGroup (cfg : Filters) (content : String) (g : List GEntry) : Except PyErr (List String) := do
  let filtered ← filterExcept (fun t : GEntry => line_in_filters cfg t.1 t.2.2) g
  match filtered with
  | [] => return []
  | [f] => return [f.2.1]
  | f1 :: f2 :: fs =>
    match (f1 :: f2 :: fs).filterMap (fun t : GEntry => t.2.2) with
    | [] => throw .valueErrorEmptyMin
    | t0 :: ts =>
      return [summaryLine content (f1 :: f2 :: fs).length (ts.foldl min t0) (ts.foldl max t0)]

/-- The main loop of process_compact: extend the current group while derived
content repeats, flush it when the content changes, flush the open group at
end of input. -/
def compactLoop (cfg : Filters) : List String → Nat → Option String → List GEntry → Except PyErr (List String)
  | [], _, none, _ => .ok []
  | [], _, some pc, g => flushGroup cfg pc g
  | line :: rest, lineno, prev, g =>
    let e := extract_timestamp_and_content line
    if some e.2 = prev then
      compactLoop cfg rest (lineno + 1) prev (g ++ [((lineno, line, e.1) : GEntry)])
    else
      match prev with
      | none => compactLoop cfg rest (lineno + 1) (some e.2) [((lineno, line, e.1) : GEntry)]
      | some pc => do
        let out ← flushGroup cfg pc g
        let rest2 ← compactLoop cfg rest (lineno + 1) (some e.2) [((lineno, line, e.1) : GEntry)]
        return out ++ rest2

/-- Embedding of process_compact: the list of writes made to the output file,
or the first exception raised. -/
def process_compact (cfg : Filters) (lines : List String) : Except PyErr (List String) :=
  compactLoop cfg lines 1 none []

/-- Loop body of line_timestamp_in_range: scan whitespace tokens for the first
float, then check it against the bounds; no numeric token means excluded. -/
def tsTokenLoop (a b : Option Rat) : List String → Bool
  | [] => false
  | tok :: rest =>
    match pyFloat? tok with
    | none => tsTokenLoop a b rest
    | some ts =>
      (match a with | some x => !decide (ts < x) | none => true) &&
      (match b with | some y => !decide (ts > y) | none => true)

/-- Embedding of line_timestamp_in_range: whitespace-token timestamp rule. -/
def line_timestamp_in_range (line : String) (a b : Option Rat) : Bool :=
  tsTokenLoop a b (pySplitWS (pyStrip line))

/-- First whitespace-delimited token of the line that parses as a float: the
timestamp the non-compacting filter path effectively uses. -/
def firstTokenFloat (line : String) : Option Rat :=
  (pySplitWS (pyStrip line)).findSome? pyFloat?

/-- Worker for lines_filtered, carrying the 1-based line number; a line number
above the upper bound stops the scan (the Python loop breaks). -/
def linesFilteredAux (cfg : Filters) : Nat → List String → List String
  | _, [] => []
  | i, line :: rest =>
    if i < cfg.startLine then linesFilteredAux cfg (i + 1) rest
    else if overEnd cfg.endLine i then []
    else if (cfg.tsStart.isSome || cfg.tsEnd.isSome) && !line_timestamp_in_range line cfg.tsStart cfg.tsEnd then
      linesFilteredAux cfg (i + 1) rest
    else line :: linesFilteredAux cfg (i + 1) rest

/-- Embedding of lines_filtered: the lines the plain (no split, no compact)
path copies to the output file, in order. -/
def lines_filtered (cfg : Filters) (lines : List String) : List String :=
  linesFilteredAux cfg 1 lines

/-- The Range Predicate as the specification states it: the line-number check
and, when some timestamp bound is set, the token-rule timestamp check, a line
with no numeric token being excluded; both checks combined with and. -/
def rangePredSpec (cfg : Filters) (lineno : Nat) (line : String) : Bool :=
  (decide (cfg.startLine ≤ lineno) &&
    (match cfg.endLine with | some e => decide (lineno ≤ e) | none => true)) &&
  (if cfg.tsStart.isSome || cfg.tsEnd.isSome then
    match firstTokenFloat line with
    | none => false
    | some ts =>
      (match cfg.tsStart with | some a => decide (a ≤ ts) | none => true) &&
      (match cfg.tsEnd with | some b => decide (ts ≤ b) | none => true)
  else true)

/-- Embedding of the generic compact_lines generator, carrying the previous
visible line and its repeat count. -/
def clGo : Option String → Nat → List String → List String
  | none, _, [] => []
  | some p, cnt, [] => [if cnt > 1 then p ++ " (x" ++ toString cnt ++ ")" else p]
  | prev, cnt, line :: rest =>
    let l := rstripNewline line
    if some l = prev then clGo prev (cnt + 1) rest
    else
      match prev with
      | none => clGo (some l) 1 rest
      | some p => (if cnt > 1 then p ++ " (x" ++ toString cnt ++ ")" else p) :: clGo (some l) 1 rest

/-- Embedding of compact_lines: collapse consecutive identical visible lines
of the input into one annotated line. -/
def compact_lines (lines : List String) : List String :=
  clGo none 0 lines

/-- Python str.split on the comma character: every comma separates two
entries, so the result always has one more entry than there are commas. -/
def splitCommaAux : List Char → List Char → List String
  | [], acc => [String.mk acc.reverse]
  | c :: rest, acc =>
    if c = ',' then String.mk acc.reverse :: splitCommaAux rest []
    else splitCommaAux rest (c :: acc)

/-- The keyword list main builds from the -s argument: split on commas, trim
each entry. -/
def splitKeywords (s : String) : List String :=
  (splitCommaAux s.data []).map pyStrip

/-- The decision main takes when split is requested: abort (none) when the
keyword list is empty, otherwise proceed with the keywords. -/
def mainSplitDecision (s : String) : Option (List String) :=
  let kws := splitKeywords s
  if kws.isEmpty then none else some kws

/-- Per-keyword split state: previous visible line written, repeat count, and
the writes made so far, one entry per keyword as in the Python dicts. -/
structure SplitSt where
  prevLine : String → Option String
  count : String → Nat
  out : String → List String

/-- The initial split state: nothing written, no previous line, zero counts. -/
def initSplitSt : SplitSt :=
  { prevLine := fun _ => none, count := fun _ => 0, out := fun _ => [] }

/-- Pointwise update of a keyword-indexed map, as assignment into the dict. -/
def upd (f : String → α) (k : String) (v : α) : String → α :=
  fun x => if x = k then v else f x

/-- The needle starts the haystack, character for character. -/
def leadsWith : List Char → List Char → Bool
  | [], _ => true
  | _ :: _, [] => false
  | a :: as, b :: bs => a = b && leadsWith as bs

/-- Python's in operator on strings: the needle occurs contiguously somewhere
in the haystack; the empty needle occurs in every string. -/
def hasSub : List Char → List Char → Bool
  | needle, [] => leadsWith needle []
  | needle, c :: rest => leadsWith needle (c :: rest) || hasSub needle rest

/-- The first keyword of the list that is a substring of the visible line, in
caller-supplied order; none when no keyword matches. -/
def firstMatch (kws : List String) (stripped : String) : Option String :=
  kws.find? (fun kw => hasSub kw.data stripped.data)

/-- The write emitted for a keyword stream when its run of repeats closes. -/
def closeRun (p : String) (cnt : Nat) : String :=
  if cnt > 1 then p ++ " (x" ++ toString cnt ++ ")\n" else p ++ "\n"

/-- One iteration of the process_split loop body on a surviving line: route it
to the first matching keyword's stream and update only that stream's state. -/
def splitStep (compact : Bool) (kws : List String) (st : SplitSt) (line : String) : SplitSt :=
  let stripped := rstripNewline line
  match firstMatch kws stripped with
  | none => st
  | some kw =>
    if compact then
      if some stripped = st.prevLine kw then
        { st with count := upd st.count kw (st.count kw + 1) }
      else
        let o : List String :=
          match st.prevLine kw with
          | none => []
          | some p => [closeRun p (st.count kw)]
        { prevLine := upd st.prevLine kw (some stripped),
          count := upd st.count kw 1,
          out := fun k => st.out k ++ (if k = kw then o else []) }
    else
      { st with out := fun k => st.out k ++ (if k = kw then [line] else []) }

/-- The process_split main loop over the pre-filtered lines. -/
def splitLoop (compact : Bool) (kws : List String) : SplitSt → List String → SplitSt
  | st, [] => st
  | st, line :: rest => splitLoop compact kws (splitStep compact kws st line) rest

/-- The closing run one keyword's stream still holds at end of input. -/
def flushKw (st : SplitSt) (kw : String) : List String :=
  match st.prevLine kw with
  | none => []
  | some p => [closeRun p (st.count kw)]

/-- The final flush loop of process_split in compact mode: one pass over the
keyword list, each entry writing its stream's closing run, so a keyword that
occurs twice in the list has its closing run written once per occurrence.
The loop mutates nothing, so every occurrence writes the same run. -/
def finalFlush (kws : List String) (st : SplitSt) (kw : String) : List String :=
  match kws with
  | [] => []
  | k :: rest => (if k = kw then flushKw st kw else []) ++ finalFlush rest st kw

/-- Embedding of process_split: the writes made to the given keyword's output
file.  A name that is not a keyword gets no file and no writes. -/
def process_split (compact : Bool) (cfg : Filters) (kws : List String) (lines : List String) (kw : String) : List String :=
  let st := splitLoop compact kws initSplitSt (lines_filtered cfg lines)
  st.out kw ++ (if compact then finalFlush kws st kw else [])

/-- Maximal runs of consecutive lines sharing derived content, with their line
numbers and timestamps; pending group accumulated in order. -/
def groupLoop : List String → Nat → String → List GEntry → List (String × List GEntry)
  | [], _, pc, acc => [(pc, acc)]
  | line :: rest, n, pc, acc =>
    let e := extract_timestamp_and_content line
    if e.2 = pc then groupLoop rest (n + 1) pc (acc ++ [((n, line, e.1) : GEntry)])
    else (pc, acc) :: groupLoop rest (n + 1) e.2 [((n, line, e.1) : GEntry)]

/-- The content groups of an input, in order: grouping is decided by derived
content equality alone. -/
def contentGroups : List String → List (String × List GEntry)
  | [] => []
  | line :: rest =>
    let e := extract_timestamp_and_content line
    groupLoop rest 2 e.2 [((1, line, e.1) : GEntry)]

/-- Flush a list of groups in order, concatenating their records. -/
def flushGroups (cfg : Filters) : List (String × List GEntry) → Except PyErr (List String)
  | [] => .ok []
  | g :: rest => do
    let out ← flushGroup cfg g.1 g.2
    let rest2 ← flushGroups cfg rest
    return out ++ rest2

/-- The lines routed to one keyword's stream: the surviving lines whose first
matching keyword is that keyword. -/
def routed (kws : List String) (kw : String) (lines : List String) : List String :=
  lines.filter (fun l => decide (firstMatch kws (rstripNewline l) = some kw))

/-- Independent per-stream processing of the lines routed to one keyword:
writes emitted during the loop, final previous line and repeat count. -/
def streamRun (compact : Bool) : Option String → Nat → List String → List String × Option String × Nat
  | prev, cnt, [] => ([], prev, cnt)
  | prev, cnt, line :: rest =>
    let stripped := rstripNewline line
    if compact then
      if some stripped = prev then streamRun compact prev (cnt + 1) rest
      else
        let o : List String :=
          match prev with
          | none => []
          | some p => [closeRun p cnt]
        let r := streamRun compact (some stripped) 1 rest
        (o ++ r.1, r.2)
    else
      let r := streamRun compact prev cnt rest
      (line :: r.1, r.2)

/-- All writes one keyword's stream receives, loop writes then final flush. -/
def streamOut (compact : Bool) (ls : List String) : List String :=
  let r := streamRun compact none 0 ls
  r.1 ++ (if compact then (match r.2.1 with | none => [] | some p => [closeRun p r.2.2]) else [])

/-- Splitting a character list on commas always yields at least one entry. -/
theorem splitCommaAux_ne_nil (cs : List Char) (acc : List Char) : (splitCommaAux cs acc).length ≥ 1 := by
  induction cs generalizing acc with
  | nil => simp [splitCommaAux]
  | cons c rest ih =>
    by_cases h : c = ','
    · simp [splitCommaAux, h]
    · simpa [splitCommaAux, h] using ih (c :: acc)

/-- With an open run of one line and no later consecutive repeats, the
generic compactor copies the visible lines through. -/
theorem clGo_of_chain (lines : List String) (p : String)
    (h : List.Chain' (fun a b => a ≠ b) (p :: lines.map rstripNewline)) :
    clGo (some p) 1 lines = p :: lines.map rstripNewline := by
  induction lines generalizing p with
  | nil => simp [clGo]
  | cons line rest ih =>
    rw [List.map_cons] at h
    have h1 := List.chain'_cons.mp h
    have hcond : ¬ (some (rstripNewline line) = some p) := by
      intro hc
      exact h1.1 (by simpa using hc.symm)
    simp only [clGo, if_neg hcond]
    simpa using ih (rstripNewline line) h1.2

/-- The token-scanning loop of line_timestamp_in_range checks the bounds on
the first token that parses as a float. -/
theorem tsTokenLoop_eq_findSome (a b : Option Rat) (toks : List String) :
    tsTokenLoop a b toks =
      (match toks.findSome? pyFloat? with
       | none => false
       | some ts =>
         (match a with | some x => !decide (ts < x) | none => true) &&
         (match b with | some y => !decide (ts > y) | none => true)) := by
  induction toks with
  | nil => simp [tsTokenLoop, List.findSome?]
  | cons t rest ih =>
    cases hf : pyFloat? t with
    | none => simpa [tsTokenLoop, List.findSome?, hf] using ih
    | some ts => simp [tsTokenLoop, List.findSome?, hf]

/-- The negated strict comparisons of the code agree with the inclusive
comparisons of the specification. -/
theorem boundsCheck_eq (a b : Option Rat) (ts : Rat) :
    ((match a with | some x => !decide (ts < x) | none => true) &&
     (match b with | some y => !decide (ts > y) | none => true))
    = ((match a with | some x => decide (x ≤ ts) | none => true) &&
       (match b with | some y => decide (ts ≤ y) | none => true)) := by
  cases a <;> cases b <;> simp [← decide_not, not_lt, GT.gt]

/-- line_timestamp_in_range restated through the first parsing token. -/
theorem line_ts_range_eq (line : String) (a b : Option Rat) :
    line_timestamp_in_range line a b =
      (match firstTokenFloat line with
       | none => false
       | some ts =>
         (match a with | some x => decide (x ≤ ts) | none => true) &&
         (match b with | some y => decide (ts ≤ y) | none => true)) := by
  rw [line_timestamp_in_range, firstTokenFloat, tsTokenLoop_eq_findSome]
  cases (pySplitWS (pyStrip line)).findSome? pyFloat? with
  | none => rfl
  | some ts => exact boundsCheck_eq a b ts

/-- Past the upper line bound every later line fails the Range Predicate. -/
theorem filter_enumFrom_past_end (cfg : Filters) (e : Nat) (he : cfg.endLine = some e)
    (lines : List String) (i : Nat) (hi : e < i) :
    (List.enumFrom i lines).filter (fun p => rangePredSpec cfg p.1 p.2) = [] := by
  induction lines generalizing i with
  | nil => simp [List.enumFrom]
  | cons line rest ih =>
    have hpred : rangePredSpec cfg i line = false := by
      simp [rangePredSpec, he, Nat.not_le.mpr hi]
    simp only [List.enumFrom, List.filter_cons, hpred]
    exact ih (i + 1) (by omega)

/-- The streaming filter of lines_filtered equals filtering the enumerated
lines by the specification's Range Predicate. -/
theorem linesFilteredAux_eq_filter (cfg : Filters) (lines : List String) (i : Nat) :
    linesFilteredAux cfg i lines
      = ((List.enumFrom i lines).filter (fun p => rangePredSpec cfg p.1 p.2)).map Prod.snd := by
  induction lines generalizing i with
  | nil => simp [linesFilteredAux, List.enumFrom]
  | cons line rest ih =>
    by_cases h1 : i < cfg.startLine
    · have hpred : rangePredSpec cfg i line = false := by
        simp [rangePredSpec, Nat.not_le.mpr h1]
      simp only [linesFilteredAux, if_pos h1, List.enumFrom, List.filter_cons, hpred]
      simpa using ih (i + 1)
    · by_cases h2 : overEnd cfg.endLine i = true
      · rcases he : cfg.endLine with _ | e
        · rw [he] at h2; simp [overEnd] at h2
        · have hie : e < i := by
            rw [he] at h2; simpa [overEnd] using h2
          simp only [linesFilteredAux, if_neg h1, if_pos h2]
          rw [filter_enumFrom_past_end cfg e he (line :: rest) i hie]
          rfl
      · have h2f : overEnd cfg.endLine i = false := by simpa using h2
        have hline : (decide (cfg.startLine ≤ i) &&
            (match cfg.endLine with | some e => decide (i ≤ e) | none => true)) = true := by
          rcases he : cfg.endLine with _ | e
          · simp [Nat.le_of_not_lt h1]
          · rw [he] at h2f
            have : ¬ e < i := by simpa [overEnd] using h2f
            simp [Nat.le_of_not_lt h1, Nat.le_of_not_lt this]
        by_cases h3 : ((cfg.tsStart.isSome || cfg.tsEnd.isSome) &&
            !line_timestamp_in_range line cfg.tsStart cfg.tsEnd) = true
        · have hts : (cfg.tsStart.isSome || cfg.tsEnd.isSome) = true := by
            cases hcase : (cfg.tsStart.isSome || cfg.tsEnd.isSome) with
            | false => rw [hcase] at h3; simp at h3
            | true => rfl
          have hrange : line_timestamp_in_range line cfg.tsStart cfg.tsEnd = false := by
            cases hcase : line_timestamp_in_range line cfg.tsStart cfg.tsEnd with
            | false => rfl
            | true => rw [hcase] at h3; simp at h3
          have hpred : rangePredSpec cfg i line = false := by
            rw [rangePredSpec, hline]
            rw [line_ts_range_eq] at hrange
            simp [hts, hrange]
          simp only [linesFilteredAux, if_neg h1, if_neg h2, if_pos h3,
            List.enumFrom, List.filter_cons, hpred]
          simpa using ih (i + 1)
        · have hpred : rangePredSpec cfg i line = true := by
            rw [rangePredSpec, hline]
            rcases hts : (cfg.tsStart.isSome || cfg.tsEnd.isSome) with _ | _
            · simp
            · have hrange : line_timestamp_in_range line cfg.tsStart cfg.tsEnd = true := by
                rcases hr : line_timestamp_in_range line cfg.tsStart cfg.tsEnd with _ | _
                · exact absurd (by simp [hts, hr]) h3
                · rfl
              rw [line_ts_range_eq] at hrange
              simp [hrange]
          simp only [linesFilteredAux, if_neg h1, if_neg h2, if_neg h3,
            List.enumFrom, List.filter_cons, hpred]
          simpa using ih (i + 1)

/-- C9.  On input whose visible lines have no two equal consecutive entries,
the generic equality-based compactor is a no-op: it yields the visible lines
unchanged, in order, with no repetition annotations. -/
theorem c9_generic_compactor_noop (lines : List String)
    (h : List.Chain' (fun a b => a ≠ b) (lines.map rstripNewline)) :
    compact_lines lines = lines.map rstripNewline
    ∧ ((∀ l ∈ lines, rstripNewline l = l) → compact_lines lines = lines) := by
  have hmain : compact_lines lines = lines.map rstripNewline := by
    cases lines with
    | nil => rfl
    | cons line rest =>
      have hch : List.Chain' (fun a b => a ≠ b) (rstripNewline line :: rest.map rstripNewline) := by
        simpa using h
      have : clGo (some (rstripNewline line)) 1 rest
          = rstripNewline line :: rest.map rstripNewline := clGo_of_chain rest (rstripNewline line) hch
      simpa [compact_lines, clGo] using this
  refine ⟨hmain, fun hid => ?_⟩
  rw [hmain]
  calc lines.map rstripNewline = lines.map id := List.map_congr_left hid
    _ = lines := List.map_id lines

/-- Witness for C9 at a concrete input. -/
theorem c9_witness : compact_lines ["a\n", "b\n", "a\n"] = ["a", "b", "a"] := by
  have hmap : List.map rstripNewline ["a\n", "b\n", "a\n"] = ["a", "b", "a"] := by decide
  have hch : List.Chain' (fun a b => a ≠ b) (List.map rstripNewline ["a\n", "b\n", "a\n"]) := by
    rw [hmap]
    exact List.chain'_cons.mpr ⟨by decide, List.chain'_cons.mpr ⟨by decide, List.chain'_singleton _⟩⟩
  rw [(c9_generic_compactor_noop ["a\n", "b\n", "a\n"] hch).1, hmap]

/-- C4.  In plain mode the output is exactly the sublist of input lines that
satisfy the specification's Range Predicate, in original order and verbatim;
and whenever a timestamp bound is set, a line with no whitespace-delimited
numeric token fails the predicate at every line number. -/
theorem c4_plain_mode_exact_filter (cfg : Filters) (lines : List String) :
    lines_filtered cfg lines
      = ((List.enumFrom 1 lines).filter (fun p => rangePredSpec cfg p.1 p.2)).map Prod.snd
    ∧ ∀ i line, (cfg.tsStart.isSome || cfg.tsEnd.isSome) = true →
        firstTokenFloat line = none → rangePredSpec cfg i line = false := by
  refine ⟨linesFilteredAux_eq_filter cfg lines 1, fun i line hts hnone => ?_⟩
  simp [rangePredSpec, hts, hnone]

/-- Witness for C4 at a concrete input: with a lower timestamp bound set, the
line with no numeric token is dropped and the numeric line is kept verbatim. -/
theorem c4_witness :
    lines_filtered { cfg0 with tsStart := some 1 } ["abc def\n", "x 1.5\n"] = ["x 1.5\n"]
    ∧ rangePredSpec { cfg0 with tsStart := some 1 } 1 "abc def\n" = false := by
  constructor
  · rw [(c4_plain_mode_exact_filter { cfg0 with tsStart := some 1 } ["abc def\n", "x 1.5\n"]).1]
    with_unfolding_all rfl
  · exact (c4_plain_mode_exact_filter { cfg0 with tsStart := some 1 } ["abc def\n", "x 1.5\n"]).2
      1 "abc def\n" (by with_unfolding_all rfl) (by with_unfolding_all rfl)

/-- C1.  In whole-file compact mode the claim says a member with a set
timestamp bound and no extracted timestamp is excluded and the flush completes
normally; the code instead compares None against the bound and raises
TypeError, so flushing such a group aborts the run. -/
theorem c1_none_ts_member_raises :
    line_in_filters { cfg0 with tsStart := some 1, tsEnd := some 2 } 1 none = .error .typeErrorNoneCmp
    ∧ process_compact { cfg0 with tsStart := some 1, tsEnd := some 2 } ["abc\n"]
        = .error .typeErrorNoneCmp := by
  constructor
  · with_unfolding_all rfl
  · with_unfolding_all rfl

/-- C2.  The claim says the flush guards against min/max over an empty
timestamp set when two or more surviving members all lack timestamps; the code
has no guard and raises ValueError on such a group. -/
theorem c2_empty_min_raises :
    flushGroup cfg0 "abc" [((1, "abc\n", none) : GEntry), ((2, "abc\n", none) : GEntry)]
        = .error .valueErrorEmptyMin
    ∧ process_compact cfg0 ["abc\n", "abc\n"] = .error .valueErrorEmptyMin := by
  constructor
  · with_unfolding_all rfl
  · with_unfolding_all rfl

/-- C7.  The two timestamp-extraction rules disagree on the line id42 100.0:
the regex substring extractor of the compact path takes 42 out of the token
id42 leaving content id 100.0, while the whitespace-token rule of the filter
path skips id42 and uses 100.0; with timestamp bounds 50 to 200 the filter
path accepts the line while the compact-path predicate rejects timestamp 42. -/
theorem c7_dual_extraction_rules :
    extract_timestamp_and_content "id42 100.0" = (some 42, "id 100.0")
    ∧ firstTokenFloat "id42 100.0" = some 100
    ∧ pyFloat? "id42" = none
    ∧ pyFloat? "100.0" = some 100
    ∧ (42 : Rat) < 100
    ∧ line_timestamp_in_range "id42 100.0" (some 50) (some 200) = true
    ∧ line_in_filters { cfg0 with tsStart := some 50, tsEnd := some 200 } 1 (some 42) = .ok false := by
  refine ⟨?_, ?_, ?_, ?_, ?_, ?_, ?_⟩ <;> with_unfolding_all rfl

/-- C8.  A compact-mode group of three identical-content lines with timestamps
100.0, 100026.125 and 100050.5, all inside the configured ranges, produces
exactly one summary line with the minimum and maximum timestamps formatted
with three decimal digits. -/
theorem c8_summary_formatting :
    process_compact { cfg0 with tsStart := some 100, tsEnd := some 100051 }
        ["foo 100.0 bar\n", "foo 100026.125 bar\n", "foo 100050.5 bar\n"]
      = .ok ["foo  bar (x3, TS: 100.000-100050.500)\n"] := by
  with_unfolding_all rfl

/-- C3, counterexample.  The -s value consisting of a lone comma trims to two
empty-string keywords; the keyword list is not empty, main does not abort, and
process_split goes on to write output for the empty keyword. -/
theorem c3_comma_value_proceeds :
    splitKeywords "," = ["", ""]
    ∧ mainSplitDecision "," = some ["", ""]
    ∧ process_split false cfg0 ["", ""] ["hello\n"] "" = ["hello\n"] := by
  refine ⟨?_, ?_, ?_⟩ <;> with_unfolding_all rfl

/-- C3, amended.  Splitting any -s string on commas yields at least one entry,
so the trimmed keyword list is never the empty list and the abort branch of
main is unreachable: split processing always proceeds with the trimmed
keywords. -/
theorem c3_abort_branch_unreachable (s : String) :
    (splitKeywords s).length ≥ 1 ∧ mainSplitDecision s = some (splitKeywords s) := by
  have h : (splitKeywords s).length ≥ 1 := by
    simpa [splitKeywords] using splitCommaAux_ne_nil s.data []
  refine ⟨h, ?_⟩
  have h2 : (splitKeywords s).isEmpty = false := by
    cases hk : splitKeywords s with
    | nil => rw [hk] at h; simp at h
    | cons a l => simp
  simp [mainSplitDecision, h2]

/-- The compact loop with an open group produces the same writes as flushing
the content groups the loop is still to close, in order. -/
theorem compactLoop_eq_flushGroups (cfg : Filters) (lines : List String) (n : Nat) (pc : String) (acc : List GEntry) :
    compactLoop cfg lines n (some pc) acc = flushGroups cfg (groupLoop lines n pc acc) := by
  induction lines generalizing n pc acc with
  | nil =>
    simp only [compactLoop, groupLoop, flushGroups]
    cases h : flushGroup cfg pc acc with
    | error e => simp [h, bind, Except.bind]
    | ok l => simp [h, bind, Except.bind, pure, Except.pure]
  | cons line rest ih =>
    by_cases hc : (extract_timestamp_and_content line).2 = pc
    · have hcond : some (extract_timestamp_and_content line).2 = some pc := by rw [hc]
      simp only [compactLoop, groupLoop, if_pos hcond, if_pos hc]
      exact ih (n + 1) pc (acc ++ [((n, line, (extract_timestamp_and_content line).1) : GEntry)])
    · have hcond : ¬ some (extract_timestamp_and_content line).2 = some pc := by
        intro hx
        exact hc (Option.some_inj.mp hx)
      simp only [compactLoop, groupLoop, if_neg hcond, if_neg hc, flushGroups]
      cases h : flushGroup cfg pc acc with
      | error e => simp [h, bind, Except.bind]
      | ok l =>
        simp only [h, bind, Except.bind]
        rw [ih (n + 1) (extract_timestamp_and_content line).2
          [((n, line, (extract_timestamp_and_content line).1) : GEntry)]]

/-- process_compact is flushing the content groups of the input, in order. -/
theorem process_compact_eq_flushGroups (cfg : Filters) (lines : List String) :
    process_compact cfg lines = flushGroups cfg (contentGroups lines) := by
  cases lines with
  | nil => rfl
  | cons line rest =>
    have hcond : ¬ some (extract_timestamp_and_content line).2 = none := by simp
    simp only [process_compact, contentGroups, compactLoop, if_neg hcond]
    exact compactLoop_eq_flushGroups cfg rest 2 (extract_timestamp_and_content line).2
      [((1, line, (extract_timestamp_and_content line).1) : GEntry)]

/-- A successful group flush writes at most one record. -/
theorem flushGroup_length_le_one (cfg : Filters) (c : String) (g : List GEntry) (recs : List String)
    (h : flushGroup cfg c g = .ok recs) : recs.length ≤ 1 := by
  simp only [flushGroup, bind, Except.bind] at h
  cases hf : filterExcept (fun t : GEntry => line_in_filters cfg t.1 t.2.2) g with
  | error e => rw [hf] at h; simp at h
  | ok fl =>
    rw [hf] at h
    match fl with
    | [] => simp [pure, Except.pure] at h; simp [h]
    | [f] => simp [pure, Except.pure] at h; simp [← h]
    | f1 :: f2 :: fs =>
      simp only at h
      cases hm : (f1 :: f2 :: fs).filterMap (fun t : GEntry => t.2.2) with
      | nil => rw [hm] at h; simp [throw, throwThe, MonadExceptOf.throw] at h
      | cons t0 ts =>
        rw [hm] at h
        simp [pure, Except.pure] at h
        simp [← h]

/-- A successful flush of a group with at least two surviving members writes
exactly one summary record whose count is the number of survivors. -/
theorem flushGroup_summary_count (cfg : Filters) (c : String) (g : List GEntry)
    (recs : List String) (fl : List GEntry)
    (hfl : filterExcept (fun t : GEntry => line_in_filters cfg t.1 t.2.2) g = .ok fl)
    (h2 : 2 ≤ fl.length)
    (h : flushGroup cfg c g = .ok recs) :
    ∃ a b, recs = [summaryLine c fl.length a b] := by
  simp only [flushGroup, bind, Except.bind, hfl] at h
  match fl, h2 with
  | f1 :: f2 :: fs, _ =>
    simp only at h
    cases hm : (f1 :: f2 :: fs).filterMap (fun t : GEntry => t.2.2) with
    | nil => rw [hm] at h; simp [throw, throwThe, MonadExceptOf.throw] at h
    | cons t0 ts =>
      rw [hm] at h
      simp [pure, Except.pure] at h
      exact ⟨ts.foldl min t0, ts.foldl max t0, h.symm⟩

/-- C5.  Whole-file compaction writes the flushes of the maximal runs of
identical derived content, in order, so each run yields at most one record;
grouping is content equality alone, and a flush of a group with two or more
surviving members writes one summary whose count is the survivor count. -/
theorem c5_grouping_correctness (cfg : Filters) (lines : List String) :
    process_compact cfg lines = flushGroups cfg (contentGroups lines)
    ∧ (∀ c g recs, flushGroup cfg c g = .ok recs → recs.length ≤ 1)
    ∧ (∀ c g recs fl,
        filterExcept (fun t : GEntry => line_in_filters cfg t.1 t.2.2) g = .ok fl →
        2 ≤ fl.length → flushGroup cfg c g = .ok recs →
        ∃ a b, recs = [summaryLine c fl.length a b]) := by
  refine ⟨process_compact_eq_flushGroups cfg lines, ?_, ?_⟩
  · intro c g recs h
    exact flushGroup_length_le_one cfg c g recs h
  · intro c g recs fl hfl h2 h
    exact flushGroup_summary_count cfg c g recs fl hfl h2 h

/-- Witness for C5 at a concrete input: a run of two lines of equal derived
content and differing timestamps flushes as one summary record of count two. -/
theorem c5_witness :
    process_compact cfg0 ["k 1\n", "k 2\n", "b\n"]
        = flushGroups cfg0 (contentGroups ["k 1\n", "k 2\n", "b\n"])
    ∧ (∃ a b, ["k  (x2, TS: 1.000-2.000)\n"] = [summaryLine "k " 2 a b]) := by
  refine ⟨(c5_grouping_correctness cfg0 ["k 1\n", "k 2\n", "b\n"]).1, ?_⟩
  have h := (c5_grouping_correctness cfg0 ["k 1\n", "k 2\n", "b\n"]).2.2 "k "
    [((1, "k 1\n", some 1) : GEntry), ((2, "k 2\n", some 2) : GEntry)]
    ["k  (x2, TS: 1.000-2.000)\n"]
    [((1, "k 1\n", some 1) : GEntry), ((2, "k 2\n", some 2) : GEntry)]
    (by with_unfolding_all rfl) (by decide) (by with_unfolding_all rfl)
  exact h

/-- Without compaction a stream run copies its lines through unchanged. -/
theorem streamRun_false (prev : Option String) (cnt : Nat) (ls : List String) :
    streamRun false prev cnt ls = (ls, prev, cnt) := by
  induction ls generalizing prev cnt with
  | nil => rfl
  | cons line rest ih => simp [streamRun, ih]

/-- Without compaction all the writes of a stream are its routed lines. -/
theorem streamOut_false (ls : List String) : streamOut false ls = ls := by
  simp [streamOut, streamRun_false]

/-- A found element is the first satisfying element of the list. -/
theorem find?_first (p : String → Bool) (l : List String) (x : String)
    (h : l.find? p = some x) :
    ∃ pre post, l = pre ++ x :: post ∧ p x = true ∧ ∀ k ∈ pre, p k = false := by
  induction l with
  | nil => simp [List.find?] at h
  | cons a as ih =>
    cases hp : p a with
    | true =>
      simp only [List.find?, hp] at h
      have hx : a = x := by simpa using h
      subst hx
      exact ⟨[], as, rfl, hp, by simp⟩
    | false =>
      simp only [List.find?, hp] at h
      obtain ⟨pre, post, hl, hx, hpre⟩ := ih h
      refine ⟨a :: pre, post, by simp [hl], hx, ?_⟩
      intro k hk
      rcases List.mem_cons.mp hk with hk | hk
      · rw [hk]; exact hp
      · exact hpre k hk

/-- The empty needle is a substring of every string. -/
theorem hasSub_nil (cs : List Char) : hasSub [] cs = true := by
  cases cs <;> simp [hasSub, leadsWith]

/-- One step of the split loop leaves the state of an unrouted keyword alone. -/
theorem splitStep_other (compact : Bool) (kws : List String) (st : SplitSt) (line : String)
    (kw kw2 : String) (hfm : firstMatch kws (rstripNewline line) = some kw2) (hkw : kw ≠ kw2) :
    (splitStep compact kws st line).out kw = st.out kw
    ∧ (splitStep compact kws st line).prevLine kw = st.prevLine kw
    ∧ (splitStep compact kws st line).count kw = st.count kw := by
  cases compact <;>
    by_cases hprev : some (rstripNewline line) = st.prevLine kw2 <;>
      simp [splitStep, hfm, upd, hprev, hkw]

/-- The split loop factorizes per keyword: the writes, previous line and count
of one keyword's stream depend only on the lines routed to that keyword. -/
theorem splitLoop_factor (compact : Bool) (kws : List String) (lines : List String)
    (st : SplitSt) (kw : String) :
    (splitLoop compact kws st lines).out kw
        = st.out kw ++ (streamRun compact (st.prevLine kw) (st.count kw) (routed kws kw lines)).1
    ∧ (splitLoop compact kws st lines).prevLine kw
        = (streamRun compact (st.prevLine kw) (st.count kw) (routed kws kw lines)).2.1
    ∧ (splitLoop compact kws st lines).count kw
        = (streamRun compact (st.prevLine kw) (st.count kw) (routed kws kw lines)).2.2 := by
  induction lines generalizing st with
  | nil => simp [splitLoop, routed, streamRun]
  | cons line rest ih =>
    cases hfm : firstMatch kws (rstripNewline line) with
    | none =>
      have hr : routed kws kw (line :: rest) = routed kws kw rest := by
        simp [routed, List.filter_cons, hfm]
      have hstep : splitStep compact kws st line = st := by
        simp [splitStep, hfm]
      simp only [splitLoop, hstep, hr]
      exact ih st
    | some kw2 =>
      by_cases hkw : kw2 = kw
      · subst hkw
        have hr : routed kws kw2 (line :: rest) = line :: routed kws kw2 rest := by
          simp [routed, List.filter_cons, hfm]
        cases compact with
        | false =>
          have hstep : splitStep false kws st line
              = { st with out := fun k => st.out k ++ (if k = kw2 then [line] else []) } := by
            simp [splitStep, hfm]
          obtain ⟨ih1, ih2, ih3⟩ :=
            ih { st with out := fun k => st.out k ++ (if k = kw2 then [line] else []) }
          simp only [splitLoop, hstep, hr]
          refine ⟨?_, ?_, ?_⟩
          · rw [ih1]; simp [streamRun_false]
          · rw [ih2]; simp [streamRun_false]
          · rw [ih3]; simp [streamRun_false]
        | true =>
          by_cases hprev : some (rstripNewline line) = st.prevLine kw2
          · have hstep : splitStep true kws st line
                = { st with count := upd st.count kw2 (st.count kw2 + 1) } := by
              simp [splitStep, hfm, hprev]
            obtain ⟨ih1, ih2, ih3⟩ := ih { st with count := upd st.count kw2 (st.count kw2 + 1) }
            simp only [splitLoop, hstep, hr, streamRun, if_pos hprev]
            refine ⟨?_, ?_, ?_⟩
            · rw [ih1]; simp [upd]
            · rw [ih2]; simp [upd]
            · rw [ih3]; simp [upd]
          · have hstep : splitStep true kws st line
                = { prevLine := upd st.prevLine kw2 (some (rstripNewline line)),
                    count := upd st.count kw2 1,
                    out := fun k => st.out k ++
                      (if k = kw2 then
                        (match st.prevLine kw2 with
                         | none => []
                         | some p => [closeRun p (st.count kw2)])
                       else []) } := by
              simp [splitStep, hfm, hprev]
            obtain ⟨ih1, ih2, ih3⟩ := ih
              { prevLine := upd st.prevLine kw2 (some (rstripNewline line)),
                count := upd st.count kw2 1,
                out := fun k => st.out k ++
                  (if k = kw2 then
                    (match st.prevLine kw2 with
                     | none => []
                     | some p => [closeRun p (st.count kw2)])
                   else []) }
            simp only [splitLoop, hstep, hr, streamRun, if_neg hprev]
            refine ⟨?_, ?_, ?_⟩
            · rw [ih1]; simp [upd]
            · rw [ih2]; simp [upd]
            · rw [ih3]; simp [upd]
      · have hkw2 : kw ≠ kw2 := fun h => hkw h.symm
        have hr : routed kws kw (line :: rest) = routed kws kw rest := by
          simp [routed, List.filter_cons, hfm, fun h => hkw (by exact h)]
        obtain ⟨ho, hp, hc⟩ := splitStep_other compact kws st line kw kw2 hfm hkw2
        obtain ⟨ih1, ih2, ih3⟩ := ih (splitStep compact kws st line)
        simp only [splitLoop, hr]
        exact ⟨by rw [ih1, ho, hp, hc], by rw [ih2, hp, hc], by rw [ih3, hp, hc]⟩

/-- A keyword absent from the list gets no write from the final flush loop. -/
theorem finalFlush_of_not_mem (kws : List String) (st : SplitSt) (kw : String)
    (h : kw ∉ kws) : finalFlush kws st kw = [] := by
  induction kws with
  | nil => rfl
  | cons k rest ih =>
    have hk : ¬ k = kw := by
      intro he
      exact h (by rw [← he]; exact List.mem_cons_self k rest)
    simp [finalFlush, hk, ih (fun hm => h (List.mem_cons_of_mem k hm))]

/-- In a duplicate-free keyword list the final flush loop writes a present
keyword's closing run exactly once. -/
theorem finalFlush_of_nodup_mem (kws : List String) (st : SplitSt) (kw : String)
    (hnd : kws.Nodup) (h : kw ∈ kws) : finalFlush kws st kw = flushKw st kw := by
  induction kws with
  | nil => cases h
  | cons k rest ih =>
    rcases List.mem_cons.mp h with he | hm
    · have hnr : kw ∉ rest := by
        rw [he]
        exact (List.nodup_cons.mp hnd).1
      simp [finalFlush, he.symm, finalFlush_of_not_mem rest st kw hnr]
    · have hk : ¬ k = kw := by
        intro he
        rw [he] at hnd
        exact (List.nodup_cons.mp hnd).1 hm
      simp [finalFlush, hk, ih (List.nodup_cons.mp hnd).2 hm]

/-- For a duplicate-free keyword list, process_split equals the independent
per-stream processing of the lines routed to the keyword, for every name. -/
theorem process_split_eq_streamOut (compact : Bool) (cfg : Filters) (kws : List String)
    (lines : List String) (kw : String) (hnd : kws.Nodup) :
    process_split compact cfg kws lines kw
      = streamOut compact (routed kws kw (lines_filtered cfg lines)) := by
  obtain ⟨h1, h2, h3⟩ := splitLoop_factor compact kws (lines_filtered cfg lines) initSplitSt kw
  simp only [initSplitSt] at h1 h2 h3
  by_cases hmem : kw ∈ kws
  · have hff := finalFlush_of_nodup_mem kws
      (splitLoop compact kws initSplitSt (lines_filtered cfg lines)) kw hnd hmem
    simp only [initSplitSt] at hff
    simp only [process_split, streamOut, hff, flushKw, initSplitSt, h1, h2, h3]
    cases compact <;> simp
  · have hff := finalFlush_of_not_mem kws
      (splitLoop compact kws initSplitSt (lines_filtered cfg lines)) kw hmem
    simp only [initSplitSt] at hff
    have hrouted : routed kws kw (lines_filtered cfg lines) = [] := by
      rw [routed, List.filter_eq_nil_iff]
      intro l _
      simp only [decide_eq_true_eq]
      intro hfm
      exact hmem (List.mem_of_find?_eq_some hfm)
    rw [hrouted] at h1
    simp only [process_split, hff, initSplitSt, h1, hrouted]
    cases compact <;> simp [streamOut, streamRun]

/-- Without compaction the final flush is inert, so for every keyword list,
duplicates included, a stream is exactly its routed lines, verbatim. -/
theorem process_split_false_eq (cfg : Filters) (kws : List String)
    (lines : List String) (kw : String) :
    process_split false cfg kws lines kw = routed kws kw (lines_filtered cfg lines) := by
  obtain ⟨h1, _, _⟩ := splitLoop_factor false kws (lines_filtered cfg lines) initSplitSt kw
  simp only [initSplitSt] at h1
  simp only [process_split, initSplitSt, h1, streamRun_false]
  simp

/-- C6.  Every surviving line is routed by first case-sensitive substring
match over the keywords in caller order: for a duplicate-free keyword list
each keyword's stream is the independent processing of exactly the lines whose
first match is that keyword; without compaction every stream is its routed
lines verbatim for any keyword list; a found keyword is the earliest match;
and the WARN/ERROR example routes only to the WARN stream. -/
theorem c6_first_keyword_routing :
    (∀ compact cfg kws lines kw, kws.Nodup →
        process_split compact cfg kws lines kw
          = streamOut compact (routed kws kw (lines_filtered cfg lines)))
    ∧ (∀ cfg kws lines kw,
        process_split false cfg kws lines kw = routed kws kw (lines_filtered cfg lines))
    ∧ (∀ kws s kw, firstMatch kws s = some kw →
        ∃ pre post, kws = pre ++ kw :: post ∧ hasSub kw.data s.data = true
          ∧ ∀ k ∈ pre, hasSub k.data s.data = false)
    ∧ (process_split false cfg0 ["WARN", "ERROR"] ["a WARN ERROR b\n"] "WARN" = ["a WARN ERROR b\n"]
        ∧ process_split false cfg0 ["WARN", "ERROR"] ["a WARN ERROR b\n"] "ERROR" = []) := by
  refine ⟨fun compact cfg kws lines kw hnd =>
      process_split_eq_streamOut compact cfg kws lines kw hnd,
    fun cfg kws lines kw => process_split_false_eq cfg kws lines kw,
    fun kws s kw h => find?_first (fun k => hasSub k.data s.data) kws kw h, ?_, ?_⟩
  · with_unfolding_all rfl
  · with_unfolding_all rfl

/-- Witness for C6 at a concrete input: compact split on a duplicate-free
keyword list, the repeated WARN lines collapsing in the WARN stream alone. -/
theorem c6_witness :
    process_split true cfg0 ["WARN", "ERROR"] ["a WARN b\n", "a WARN b\n", "x ERROR y\n"] "WARN"
      = ["a WARN b (x2)\n"] := by
  rw [c6_first_keyword_routing.1 true cfg0 ["WARN", "ERROR"]
    ["a WARN b\n", "a WARN b\n", "x ERROR y\n"] "WARN" (by decide)]
  with_unfolding_all rfl

/-- C10, amended.  When the keyword list contains an empty string, every
surviving line matches some keyword (the empty keyword matches everything), so
no surviving line is dropped; and when every keyword is the empty string, as a
-s value of a lone comma produces, the earliest empty keyword's stream
receives every surviving line. -/
theorem c10_empty_keyword_catches_all (kws : List String) (cfg : Filters) (lines : List String)
    (h : "" ∈ kws) :
    (∀ l ∈ lines_filtered cfg lines, ∃ kw, firstMatch kws (rstripNewline l) = some kw
        ∧ l ∈ process_split false cfg kws lines kw)
    ∧ ((∀ k ∈ kws, k = "") → process_split false cfg kws lines "" = lines_filtered cfg lines) := by
  constructor
  · intro l hl
    obtain ⟨kw, hkw⟩ : ∃ kw, firstMatch kws (rstripNewline l) = some kw := by
      induction kws with
      | nil => cases h
      | cons a as ih =>
        cases hp : hasSub a.data (rstripNewline l).data with
        | true => exact ⟨a, by simp only [firstMatch, List.find?, hp]⟩
        | false =>
          have ha : a ≠ "" := by
            intro he
            subst he
            rw [show ("" : String).data = [] from rfl, hasSub_nil] at hp
            cases hp
          have h2 : "" ∈ as := by
            rcases List.mem_cons.mp h with he | he
            · exact absurd he.symm ha
            · exact he
          obtain ⟨kw, hkw⟩ := ih h2
          exact ⟨kw, by simp only [firstMatch, List.find?, hp]; exact hkw⟩
    refine ⟨kw, hkw, ?_⟩
    rw [process_split_false_eq, routed, List.mem_filter]
    exact ⟨hl, by simp [hkw]⟩
  · intro hall
    rw [process_split_false_eq, routed]
    have hpred : ∀ l ∈ lines_filtered cfg lines,
        decide (firstMatch kws (rstripNewline l) = some "") = true := by
      intro l _
      cases kws with
      | nil => cases h
      | cons a as =>
        have ha : a = "" := hall a (by simp)
        subst ha
        have hp : hasSub ("" : String).data (rstripNewline l).data = true := by
          rw [show ("" : String).data = [] from rfl]
          exact hasSub_nil _
        simp only [firstMatch, List.find?, hp]
        simp
    exact List.filter_eq_self.mpr hpred

/-- Witness for C10's amended statement at a concrete input. -/
theorem c10_witness :
    process_split false cfg0 ["", ""] ["hi\n"] "" = lines_filtered cfg0 ["hi\n"] := by
  exact (c10_empty_keyword_catches_all ["", ""] cfg0 ["hi\n"] (by simp)).2 (by decide)

/-- C10, counterexample.  With keyword list containing a and then the empty
string, the surviving line xax is routed to the a stream, not to the stream of
the earliest empty-string keyword. -/
theorem c10_earlier_keyword_wins :
    lines_filtered cfg0 ["xax\n"] = ["xax\n"]
    ∧ firstMatch ["a", ""] "xax" = some "a"
    ∧ process_split false cfg0 ["a", ""] ["xax\n"] "" = []
    ∧ process_split false cfg0 ["a", ""] ["xax\n"] "a" = ["xax\n"] := by
  refine ⟨?_, ?_, ?_, ?_⟩ <;> with_unfolding_all rfl

end CompactLog
